import Mathlib

/-!
Verification development for the Ink Gateway orchestrator (`engine.py`).

The Python program is a sequential orchestration script: it runs git
subprocesses, reads files, and assembles a payload.  We embed each function
shallowly: a subprocess invocation becomes a pure function from the modelled
environment (git state / file system / command result) to the new environment
plus the observable effects (log entries, raised error).  Machine-level
details (actual process execution, real time) are abstracted into explicit
inputs; the control flow, string handling and data manipulation are
translated directly from the source.
-/

namespace InkGateway

/-- A log record: `logging.info` / `logging.error` / `logging.warning`. -/
inductive LogEntry where
  | info (msg : String)
  | error (msg : String)
  | warning (msg : String)
deriving DecidableEq, Repr

/-- The observable result of a completed subprocess
(`subprocess.CompletedProcess` with `capture_output=True, text=True`):
exit code, captured stdout, captured stderr. -/
structure CommandResult where
  returncode : Int
  stdout : String
  stderr : String
deriving DecidableEq, Repr

/-- The payload of the `RuntimeError` raised by `_run` on unexpected failure:
`f"Command failed (exit {result.returncode}): {' '.join(...)}"` carries the
exit code and the joined command line. -/
structure CommandFailed where
  exitCode : Int
  cmdline : String
deriving DecidableEq, Repr

/-- `" ".join(str(c) for c in cmd)` — the command line as logged and as
embedded in the failure message. -/
def joinCmd (cmd : List String) : String :=
  String.intercalate " " cmd

/-- Shallow embedding of `_run(cmd, cwd, check)`.  The subprocess itself is
an environment input (`res`); the function returns the log entries emitted
and, when the command failed and `check` is set, the raised `CommandFailed`.

Source (`engine.py` 47-65):
```
log.info("$ %s", " ".join(str(c) for c in cmd))
result = subprocess.run(...)
if result.stdout.strip(): log.info(result.stdout.strip())
if result.returncode != 0:
    if result.stderr.strip(): log.error(result.stderr.strip())
    if check: raise RuntimeError(f"Command failed (exit {result.returncode}): ...")
return result
```
-/
def runModel (cmd : List String) (res : CommandResult) (check : Bool) :
    List LogEntry × Option CommandFailed :=
  let logs := [LogEntry.info ("$ " ++ joinCmd cmd)]
  let logs := if res.stdout.trim ≠ "" then logs ++ [LogEntry.info res.stdout.trim] else logs
  if res.returncode ≠ 0 then
    let logs := if res.stderr.trim ≠ "" then logs ++ [LogEntry.error res.stderr.trim] else logs
    if check then (logs, some ⟨res.returncode, joinCmd cmd⟩) else (logs, none)
  else
    (logs, none)

/-- Core of `_count_words`: the number of maximal non-whitespace runs in a
character sequence, which is exactly `len(text.split())` — Python
`str.split()` with no argument splits on runs of whitespace and drops the
empty pieces.  The flag records whether the previous character belonged to a
word. -/
def countWordsAux : List Char → Bool → Nat
  | [], _ => 0
  | c :: rest, inWord =>
    if c.isWhitespace then countWordsAux rest false
    else (if inWord then 0 else 1) + countWordsAux rest true

/-- `_count_words(text) = len(text.split())` (`engine.py` 68-69). -/
def count_words (text : String) : Nat :=
  countWordsAux text.data false

/-- A scalar configuration value as read from the YAML override file. -/
inductive ConfigValue where
  | str (s : String)
  | int (n : Int)
deriving DecidableEq, Repr

/-- The process-wide `DEFAULTS` dictionary (`engine.py` 26-32). -/
def DEFAULTS : List (String × ConfigValue) :=
  [("model", ConfigValue.str "claude-opus-4-6"),
   ("target_length", ConfigValue.int 90000),
   ("chapter_count", ConfigValue.int 30),
   ("chapter_structure", ConfigValue.str "linear"),
   ("nightly_output_target", ConfigValue.int 1500)]

/-- One step of Python `dict.update`: assigning `base[k] = v`.  If the key is
present its value is replaced in place; otherwise the pair is appended. -/
def updateOne {β : Type} (base : List (String × β)) (kv : String × β) :
    List (String × β) :=
  if base.any fun p => p.1 = kv.1 then
    base.map fun p => if p.1 = kv.1 then (p.1, kv.2) else p
  else
    base ++ [kv]

/-- Python `base.update(upd)` on dictionaries modelled as association lists
whose key order is insertion order. -/
def dictUpdate {β : Type} (base upd : List (String × β)) : List (String × β) :=
  upd.foldl updateOne base

/-- Shallow embedding of `load_config` (`engine.py` 110-122).  The input
models the override file: `none` when `Config.yml` does not exist, and
`some parsed` when it does, where `parsed = none` models a file whose
`yaml.safe_load` result is `None` (empty document, turned into `{}` by
`or {}`) and `parsed = some ovs` a YAML mapping.

```
config = dict(DEFAULTS)
if config_path.exists():
    overrides = yaml.safe_load(fh) or {}
    config.update({k: v for k, v in overrides.items() if k in DEFAULTS})
return config
```
-/
def load_config (file : Option (Option (List (String × ConfigValue)))) :
    List (String × ConfigValue) :=
  match file with
  | none => DEFAULTS
  | some parsed =>
    let overrides := parsed.getD []
    dictUpdate DEFAULTS (overrides.filter fun kv => DEFAULTS.any fun d => d.1 = kv.1)

/-- Python substring containment, `pat in s`. -/
def strContains (s pat : String) : Prop :=
  pat.data <:+: s.data

instance (s pat : String) : Decidable (strContains s pat) :=
  inferInstanceAs (Decidable (pat.data <:+: s.data))

/-- Local and remote tags of the repository, as seen by the Snapshotter. -/
structure TagState where
  tags : List String
  remoteTags : List String
deriving DecidableEq, Repr

/-- Git semantics of `git tag <t>`: fails mentioning that the tag already
exists when it does (quotes around the tag name elided); otherwise creates
the tag, unless an environmental fault (`fault = some (code, stderr)`,
e.g. a lock failure) makes the command exit non-zero without creating it —
such a message does not say the tag already exists. -/
def gitTagCmd (s : TagState) (t : String) (fault : Option (Int × String)) :
    TagState × CommandResult :=
  if t ∈ s.tags then
    (s, ⟨128, "", "fatal: tag " ++ t ++ " already exists"⟩)
  else
    match fault with
    | none => ({ s with tags := s.tags ++ [t] }, ⟨0, "", ""⟩)
    | some (c, e) => (s, ⟨c, "", e⟩)

/-- Git semantics of `git push origin <t>` for a tag name: when the tag
exists locally the remote receives it; when it does not, the refspec matches
no local ref and the command fails without touching the remote. -/
def gitPushTagCmd (s : TagState) (t : String) : TagState × CommandResult :=
  if t ∈ s.tags then
    ({ s with
        remoteTags := if t ∈ s.remoteTags then s.remoteTags else s.remoteTags ++ [t] },
     ⟨0, "", ""⟩)
  else
    (s, ⟨1, "", "error: src refspec " ++ t ++ " does not match any"⟩)

/-- `f"pre-nightly-{date.today().isoformat()}"`; the date is an input. -/
def tagName (today : String) : String :=
  "pre-nightly-" ++ today

/-- Shallow embedding of `snapshot` (`engine.py` 156-169):

```
tag = f"pre-nightly-{date.today().isoformat()}"
result = _run(["git", "tag", tag], cwd=book_dir, check=False)
if result.returncode != 0 and "already exists" in (result.stderr or ""):
    log.warning("Tag %s already exists — skipping.", tag)
else:
    _run(["git", "push", "origin", tag], cwd=book_dir)
    log.info("Snapshot tag created: %s", tag)
return tag
```

Returns the final tag state, the log entries, and either the raised
`CommandFailed` or the returned tag name. -/
def snapshot (s : TagState) (today : String) (fault : Option (Int × String)) :
    TagState × List LogEntry × Except CommandFailed String :=
  let tag := tagName today
  let tc := gitTagCmd s tag fault
  let logs1 := (runModel ["git", "tag", tag] tc.2 false).1
  if tc.2.returncode ≠ 0 ∧ strContains tc.2.stderr "already exists" then
    (tc.1, logs1 ++ [LogEntry.warning ("Tag " ++ tag ++ " already exists — skipping.")],
     Except.ok tag)
  else
    let pc := gitPushTagCmd tc.1 tag
    let pr := runModel ["git", "push", "origin", tag] pc.2 true
    match pr.2 with
    | some f => (pc.1, logs1 ++ pr.1, Except.error f)
    | none =>
      (pc.1, logs1 ++ pr.1 ++ [LogEntry.info ("Snapshot tag created: " ++ tag)],
       Except.ok tag)

/-- A file in the working copy as seen by the edit detector: its path
components below `book_dir` and the calendar day of its mtime (days are
abstract indices; `date.fromtimestamp(path.stat().st_mtime)` is the input).
Only regular files are modelled (`path.is_file()` filters the rest). -/
structure WorkFile where
  path : List String
  mtimeDay : Nat
deriving DecidableEq, Repr

/-- Shallow embedding of `detect_human_edits` (`engine.py` 125-153): files
whose path does not contain a `.git` component and whose mtime falls on the
current day. -/
def detect_human_edits (fs : List WorkFile) (today : Nat) : List WorkFile :=
  fs.filter fun f => !f.path.contains ".git" && f.mtimeDay == today

/-- The git commands issued by `commit_human_edits`. -/
inductive GitCmd where
  | add (pathspec : String)
  | commit (msg : String)
  | push (remote branch : String)
deriving DecidableEq, Repr

/-- The command line `_run` would receive for each command. -/
def gitCmdLine : GitCmd → String
  | GitCmd.add p => joinCmd ["git", "add", p]
  | GitCmd.commit m => joinCmd ["git", "commit", "-m", m]
  | GitCmd.push r b => joinCmd ["git", "push", r, b]

/-- Working-copy state for the Edit Reconciler: content-level changes
relative to `HEAD`, the index, commits created this session (each the set of
paths it staged), and the commits published to `origin main`.  The index is
clean when the Reconciler starts (the repository was just cloned or
fetched). -/
structure WorkTree where
  changed : List (List String)
  staged : List (List String)
  commits : List (List (List String))
  pushedMain : List (List (List String))
deriving DecidableEq, Repr

/-- Git semantics of one command: `git add .` stages every change;
`git commit` fails (exit 1, "nothing to commit") when nothing is staged and
otherwise records one commit of the staged set; `git push origin main`
publishes the session commits. -/
def execGit (w : WorkTree) : GitCmd → WorkTree × CommandResult
  | GitCmd.add _ => ({ w with staged := w.changed }, ⟨0, "", ""⟩)
  | GitCmd.commit _ =>
    if w.staged.isEmpty then
      (w, ⟨1, "nothing to commit, working tree clean", ""⟩)
    else
      ({ w with commits := w.commits ++ [w.staged], staged := [], changed := [] },
       ⟨0, "", ""⟩)
  | GitCmd.push _ _ => ({ w with pushedMain := w.pushedMain ++ w.commits }, ⟨0, "", ""⟩)

/-- Run a command sequence the way `commit_human_edits` does (`_run` with
`check=True` on each): stop at the first non-zero exit, which raises.
Returns the final state, the commands actually issued, and the raised
failure if any. -/
def execAll (w : WorkTree) : List GitCmd → WorkTree × List GitCmd × Option CommandFailed
  | [] => (w, [], none)
  | c :: rest =>
    let step := execGit w c
    if step.2.returncode ≠ 0 then
      (step.1, [c], some ⟨step.2.returncode, gitCmdLine c⟩)
    else
      let next := execAll step.1 rest
      (next.1, c :: next.2.1, next.2.2)

/-- The command sequence of `commit_human_edits` (`engine.py` 145-153). -/
def commit_human_edits_cmds : List GitCmd :=
  [GitCmd.add ".", GitCmd.commit "chore: human updates", GitCmd.push "origin" "main"]

/-- Step 3 of `main` (`engine.py` 292-294):
`if edited_files: commit_human_edits(book_dir, edited_files)`. -/
def reconcile_edits (fs : List WorkFile) (today : Nat) (w : WorkTree) :
    WorkTree × List GitCmd × Option CommandFailed :=
  if (detect_human_edits fs today).isEmpty then
    (w, [], none)
  else
    execAll w commit_human_edits_cmds

/-- `url.rstrip("/")`: remove every trailing `'/'`. -/
def rstripSlashes (s : String) : String :=
  ⟨(s.data.reverse.dropWhile fun c => c == '/').reverse⟩

/-- `book_name_from_url(url) = url.rstrip("/").split("/")[-1]`
(`engine.py` 90-96).  Python `split` always returns a non-empty list, so the
`[-1]` index is total; `getLastD` mirrors it. -/
def book_name_from_url (url : String) : String :=
  ((rstripSlashes url).splitOn "/").getLastD ""

/-- Local and remote branches (name, commits on the branch) plus the checked
out branch.  Commit identities are abstract (`Nat`). -/
structure BranchRepo where
  locals : List (String × List Nat)
  remotes : List (String × List Nat)
  head : String
deriving DecidableEq, Repr

/-- Git semantics of `git rebase main` run with branch `b` checked out:
the branch becomes the main-line commits followed by the replay of its own
commits that are not on main.  A conflicting rebase is not modelled — the
specification assumes the rebase succeeds cleanly. -/
def rebaseMain (r : BranchRepo) (b : String) : Except CommandFailed BranchRepo :=
  match r.locals.lookup "main" with
  | none => Except.error ⟨128, joinCmd ["git", "rebase", "main"]⟩
  | some mc =>
    match r.locals.lookup b with
    | none => Except.error ⟨128, joinCmd ["git", "rebase", "main"]⟩
    | some bc =>
      Except.ok { r with locals := updateOne r.locals (b, mc ++ bc.filter fun c => c ∉ mc) }

/-- Shallow embedding of `branch_for_draft` (`engine.py` 172-197).

`git branch --list draft` (checked=False) prints a non-empty listing exactly
when a local `draft` branch exists; `git ls-remote --heads origin draft`
(checked=False) prints a non-empty listing exactly when the remote has one.
If neither exists: `git checkout -b draft main` (fails when `main` is
missing; otherwise creates `draft` at main and checks it out) then
`git push -u origin draft`.  Otherwise: `git checkout draft` (uses the local
branch, or — git DWIM — creates a local `draft` from the remote one when
only the remote exists) then `git rebase main`. -/
def branch_for_draft (r : BranchRepo) : Except CommandFailed BranchRepo :=
  let draft_exists_locally := (r.locals.lookup "draft").isSome
  let draft_exists_remotely := (r.remotes.lookup "draft").isSome
  if !draft_exists_locally && !draft_exists_remotely then
    match r.locals.lookup "main" with
    | none => Except.error ⟨128, joinCmd ["git", "checkout", "-b", "draft", "main"]⟩
    | some mc =>
      let r1 : BranchRepo := ⟨r.locals ++ [("draft", mc)], r.remotes, "draft"⟩
      Except.ok { r1 with remotes := updateOne r1.remotes ("draft", mc) }
  else
    match r.locals.lookup "draft" with
    | some _ => rebaseMain { r with head := "draft" } "draft"
    | none =>
      match r.remotes.lookup "draft" with
      | some dc =>
        rebaseMain ⟨r.locals ++ [("draft", dc)], r.remotes, "draft"⟩ "draft"
      | none => Except.error ⟨1, joinCmd ["git", "checkout", "draft"]⟩

/-- A markdown file of the project: path components below `book_dir` and its
text content.  Only regular files are modelled. -/
structure FileEntry where
  path : List String
  content : String
deriving DecidableEq, Repr

/-- `str(path.relative_to(book_dir))` on POSIX. -/
def pathStr (p : List String) : String :=
  String.intercalate "/" p

/-- Python `str.startswith`: the pattern is a character-wise prefix. -/
def strStarts (s pre : String) : Bool :=
  decide (pre.data <+: s.data)

/-- Python `str.endswith`: the pattern is a character-wise suffix. -/
def strEnds (s post : String) : Bool :=
  decide (post.data <:+ s.data)

/-- A name matched by the glob pattern `*.md`: ends in `.md`.  `pathlib`
glob uses fnmatch semantics, where `*` also matches a leading dot, so hidden
files such as `.secret.md` are matched too. -/
def mdName (n : String) : Bool :=
  strEnds n ".md"

/-- Python string `<` on two path components: lexicographic comparison of
the character sequences by code point. -/
def strLt (a b : String) : Bool :=
  decide (a.data < b.data)

/-- Lexicographic order on path components, the order `sorted()` puts
`pathlib` paths in (component-wise comparison). -/
def pathLe : List String → List String → Bool
  | [], _ => true
  | _ :: _, [] => false
  | x :: xs, y :: ys => if strLt x y then true else if strLt y x then false else pathLe xs ys

/-- Strict version of `pathLe`. -/
def pathLt (a b : List String) : Bool :=
  pathLe a b && !pathLe b a

/-- Sort key used when sorting glob results. -/
def fileLe (a b : FileEntry) : Bool :=
  pathLe a.path b.path

/-- A file matched by `(book_dir / "Global Material").glob("*.md")`:
directly (flat) under the global-material directory. -/
def isGlobalMd (f : FileEntry) : Bool :=
  match f.path with
  | [d, n] => d == "Global Material" && mdName n
  | _ => false

/-- The components of a path relative to the chapter-material root that
`rglob("*.md")` matches: any (possibly empty) chain of directory components
followed by a `*.md` file name.  `rglob` descends into every directory,
dot-named ones included — which is why `detect_human_edits` must filter
`.git` explicitly. -/
def chapterRel : List String → Bool
  | [] => false
  | [n] => mdName n
  | _ :: rest => chapterRel rest

/-- A file matched by `(book_dir / "Chapters material").rglob("*.md")`. -/
def isChapterMd (f : FileEntry) : Bool :=
  match f.path with
  | d :: rest => d == "Chapters material" && chapterRel rest
  | [] => false

/-- The fixed path of the review draft, `book_dir / "Review" / "current.md"`. -/
def reviewPath : List String :=
  ["Review", "current.md"]

/-- The review-draft part of the context: the file at the fixed path when it
exists (`if current_md.exists()`), nothing otherwise. -/
def reviewSection (fs : List FileEntry) : List FileEntry :=
  match fs.find? fun f => f.path == reviewPath with
  | some f => [f]
  | none => []

/-- A context section as appended by `build_payload`:
`{"path": str(md_file.relative_to(book_dir)), "content": text}`. -/
def toSection (f : FileEntry) : String × String :=
  (pathStr f.path, f.content)

/-- The `context_sections` list assembled by `build_payload`
(`engine.py` 208-239): sorted global-material files, then sorted
chapter-material files, then the review draft if present. -/
def contextSections (fs : List FileEntry) : List (String × String) :=
  let globals := (fs.filter isGlobalMd).mergeSort fileLe
  let chapters := (fs.filter isChapterMd).mergeSort fileLe
  globals.map toSection ++ chapters.map toSection ++ (reviewSection fs).map toSection

/-- A file matched by `(book_dir / "Current version").glob("Full_Book_*.md")`:
the prefix and suffix cannot overlap, so the glob is exactly a
starts-with/ends-with test. -/
def isVersionBook (f : FileEntry) : Bool :=
  match f.path with
  | [d, n] => d == "Current version" && strStarts n "Full_Book_" && strEnds n ".md"
  | _ => false

/-- The manuscript word count of `build_payload` (`engine.py` 241-252):
sort the matching candidates, take the last (`candidates[-1]`), count its
words; `0` when the directory is absent or nothing matches. -/
def manuscript_word_count (fs : List FileEntry) : Nat :=
  match ((fs.filter isVersionBook).mergeSort fileLe).getLast? with
  | some latest => count_words latest.content
  | none => 0

/-! ## Helper lemmas -/

theorem strContains_append_left (pre s : String) : strContains (pre ++ s) s :=
  ⟨pre.data, [], by simp [String.data_append]⟩

theorem tagMsg_contains (t : String) :
    strContains ("fatal: tag " ++ t ++ " already exists") "already exists" := by
  have h : "fatal: tag " ++ t ++ " already exists"
      = ("fatal: tag " ++ t ++ " ") ++ "already exists" := by
    apply String.ext
    simp [String.data_append]
  rw [h]
  exact strContains_append_left _ _

/-! ## C7 — Command Runner contract -/

/-- C7: for every invocation, the Command Runner logs the command line, logs
the captured (non-empty) standard output, on non-zero exit logs the
(non-empty) standard error, and — with `check` set — raises a failure
carrying the exit code and the command line; with opt-out (`check=False`) or
on success no failure is raised and the result is returned. -/
theorem run_logs_and_failure (cmd : List String) (res : CommandResult) (check : Bool) :
    LogEntry.info ("$ " ++ joinCmd cmd) ∈ (runModel cmd res check).1 ∧
    (res.stdout.trim ≠ "" → LogEntry.info res.stdout.trim ∈ (runModel cmd res check).1) ∧
    (res.returncode ≠ 0 → res.stderr.trim ≠ "" →
      LogEntry.error res.stderr.trim ∈ (runModel cmd res check).1) ∧
    (res.returncode ≠ 0 → check = true →
      (runModel cmd res check).2 = some ⟨res.returncode, joinCmd cmd⟩) ∧
    (check = false → (runModel cmd res check).2 = none) ∧
    (res.returncode = 0 → (runModel cmd res check).2 = none) := by
  unfold runModel
  by_cases h0 : res.returncode = 0 <;> by_cases hs : res.stdout.trim = "" <;>
    by_cases he : res.stderr.trim = "" <;> cases check <;>
      simp [h0, hs, he]

/-- Witness for C7 at a concrete failing invocation. -/
theorem run_logs_and_failure_witness :
    LogEntry.info ("$ " ++ joinCmd ["git", "status"]) ∈
      (runModel ["git", "status"] ⟨1, " out ", "err"⟩ true).1 ∧
    ((" out " : String).trim ≠ "" →
      LogEntry.info (" out " : String).trim ∈ (runModel ["git", "status"] ⟨1, " out ", "err"⟩ true).1) ∧
    ((1 : Int) ≠ 0 → ("err" : String).trim ≠ "" →
      LogEntry.error ("err" : String).trim ∈ (runModel ["git", "status"] ⟨1, " out ", "err"⟩ true).1) ∧
    ((1 : Int) ≠ 0 → true = true →
      (runModel ["git", "status"] ⟨1, " out ", "err"⟩ true).2 = some ⟨1, joinCmd ["git", "status"]⟩) ∧
    (true = false → (runModel ["git", "status"] ⟨1, " out ", "err"⟩ true).2 = none) ∧
    ((1 : Int) = 0 → (runModel ["git", "status"] ⟨1, " out ", "err"⟩ true).2 = none) :=
  run_logs_and_failure ["git", "status"] ⟨1, " out ", "err"⟩ true

/-! ## C9 — project name ignores trailing slashes -/

theorem dropWhile_replicate_slash (k : Nat) (x : List Char) :
    List.dropWhile (fun c => c == '/') (List.replicate k '/' ++ x) =
      List.dropWhile (fun c => c == '/') x := by
  induction k with
  | zero => simp
  | succ n ih => simp [List.replicate_succ, List.dropWhile_cons, ih]

theorem rstripSlashes_append_slashes (u : String) (k : Nat) :
    rstripSlashes (u ++ ⟨List.replicate k '/'⟩) = rstripSlashes u := by
  unfold rstripSlashes
  apply String.ext
  show (((u ++ ⟨List.replicate k '/'⟩).data.reverse.dropWhile fun c => c == '/').reverse)
      = ((u.data.reverse.dropWhile fun c => c == '/').reverse)
  rw [String.data_append]
  show ((((u.data ++ List.replicate k '/').reverse).dropWhile fun c => c == '/').reverse) = _
  rw [List.reverse_append, List.reverse_replicate, dropWhile_replicate_slash]

/-- C9: deriving the book name from a URL with any number of trailing
slashes appended gives the same name as deriving it from the bare URL. -/
theorem book_name_trailing_slashes (u : String) (k : Nat) :
    book_name_from_url (u ++ ⟨List.replicate k '/'⟩) = book_name_from_url u := by
  unfold book_name_from_url
  rw [rstripSlashes_append_slashes]

/-! ## C10 — empty override document gives the defaults -/

/-- C10: an existing override file that parses to an empty document yields
exactly the built-in defaults, the same result as an absent file; the loader
is a total function on parsed inputs, so no error is raised. -/
theorem load_config_empty_doc :
    load_config (some none) = DEFAULTS ∧ load_config none = DEFAULTS :=
  ⟨rfl, rfl⟩

/-! ## C1 — Snapshotter failure handling -/

/-- C1: when tag creation exits non-zero for any reason other than the tag
already existing, the Snapshotter run fails with an error and the remote
receives no tag; and (for every starting state and fault) the remote gains
the day tag only when tag creation succeeded. -/
theorem snapshot_failure_handling (s : TagState) (today : String) (c : Int) (e : String)
    (hc : c ≠ 0) (he : ¬ strContains e "already exists") (ht : tagName today ∉ s.tags) :
    (∃ f, (snapshot s today (some (c, e))).2.2 = Except.error f) ∧
    (snapshot s today (some (c, e))).1.remoteTags = s.remoteTags ∧
    ∀ (s2 : TagState) (fault : Option (Int × String)),
      tagName today ∉ s2.remoteTags →
      tagName today ∈ (snapshot s2 today fault).1.remoteTags →
      fault = none ∧ tagName today ∉ s2.tags := by
  refine ⟨?_, ?_, ?_⟩
  · simp [snapshot, gitTagCmd, gitPushTagCmd, runModel, ht, hc, he]
  · simp [snapshot, gitTagCmd, gitPushTagCmd, runModel, ht, hc, he]
  · intro s2 fault h1 h2
    by_cases hmem : tagName today ∈ s2.tags
    · exfalso
      simp [snapshot, gitTagCmd, hmem, tagMsg_contains] at h2
      exact h1 h2
    · cases fault with
      | none => exact ⟨rfl, hmem⟩
      | some f =>
        exfalso
        by_cases hskip : f.1 ≠ 0 ∧ strContains f.2 "already exists" <;>
          simp [snapshot, gitTagCmd, gitPushTagCmd, runModel, hmem, hskip] at h2 <;>
          exact h1 h2

/-- Witness for C1: an empty repository, a lock failure on tag creation. -/
theorem snapshot_failure_handling_witness :
    ((1 : Int) ≠ 0 ∧ ¬ strContains "fatal: unable to lock ref" "already exists" ∧
      tagName "2026-02-03" ∉ (⟨[], []⟩ : TagState).tags) ∧
    ((∃ f, (snapshot ⟨[], []⟩ "2026-02-03" (some (1, "fatal: unable to lock ref"))).2.2
        = Except.error f) ∧
      (snapshot ⟨[], []⟩ "2026-02-03" (some (1, "fatal: unable to lock ref"))).1.remoteTags
        = (⟨[], []⟩ : TagState).remoteTags ∧
      ∀ (s2 : TagState) (fault : Option (Int × String)),
        tagName "2026-02-03" ∉ s2.remoteTags →
        tagName "2026-02-03" ∈ (snapshot s2 "2026-02-03" fault).1.remoteTags →
        fault = none ∧ tagName "2026-02-03" ∉ s2.tags) :=
  ⟨⟨by decide, by decide, by decide⟩,
    snapshot_failure_handling ⟨[], []⟩ "2026-02-03" 1 "fatal: unable to lock ref"
      (by decide) (by decide) (by decide)⟩

/-! ## C2 — Snapshotter idempotence -/

/-- C2: starting a day with no tag for that date, two Snapshotter runs on
the same date both return the date-derived tag name without error, the
second run leaves the git state unchanged and logs a skip, and exactly one
local and one remote tag exist for that date afterwards. -/
theorem snapshot_idempotent (s : TagState) (today : String)
    (h1 : tagName today ∉ s.tags) (h2 : tagName today ∉ s.remoteTags) :
    (snapshot s today none).2.2 = Except.ok (tagName today) ∧
    (snapshot (snapshot s today none).1 today none).2.2 = Except.ok (tagName today) ∧
    (snapshot (snapshot s today none).1 today none).1 = (snapshot s today none).1 ∧
    (snapshot (snapshot s today none).1 today none).1.tags.count (tagName today) = 1 ∧
    (snapshot (snapshot s today none).1 today none).1.remoteTags.count (tagName today) = 1 ∧
    LogEntry.warning ("Tag " ++ tagName today ++ " already exists — skipping.") ∈
      (snapshot (snapshot s today none).1 today none).2.1 := by
  have e1 : (snapshot s today none).1
      = ⟨s.tags ++ [tagName today], s.remoteTags ++ [tagName today]⟩ := by
    simp [snapshot, gitTagCmd, gitPushTagCmd, runModel, h1, h2]
  refine ⟨?_, ?_, ?_, ?_, ?_, ?_⟩
  · simp [snapshot, gitTagCmd, gitPushTagCmd, runModel, h1, h2]
  · rw [e1]
    simp [snapshot, gitTagCmd, tagMsg_contains]
  · rw [e1]
    simp [snapshot, gitTagCmd, tagMsg_contains]
  · rw [e1]
    simp [snapshot, gitTagCmd, tagMsg_contains, List.count_append,
      List.count_eq_zero.mpr h1]
  · rw [e1]
    simp [snapshot, gitTagCmd, tagMsg_contains, List.count_append,
      List.count_eq_zero.mpr h2]
  · rw [e1]
    simp [snapshot, gitTagCmd, tagMsg_contains]

/-- Witness for C2: an empty repository on a fixed date. -/
theorem snapshot_idempotent_witness :
    (tagName "2026-02-03" ∉ (⟨[], []⟩ : TagState).tags ∧
      tagName "2026-02-03" ∉ (⟨[], []⟩ : TagState).remoteTags) ∧
    ((snapshot ⟨[], []⟩ "2026-02-03" none).2.2 = Except.ok (tagName "2026-02-03") ∧
      (snapshot (snapshot ⟨[], []⟩ "2026-02-03" none).1 "2026-02-03" none).2.2
        = Except.ok (tagName "2026-02-03") ∧
      (snapshot (snapshot ⟨[], []⟩ "2026-02-03" none).1 "2026-02-03" none).1
        = (snapshot ⟨[], []⟩ "2026-02-03" none).1 ∧
      (snapshot (snapshot ⟨[], []⟩ "2026-02-03" none).1 "2026-02-03" none).1.tags.count
        (tagName "2026-02-03") = 1 ∧
      (snapshot (snapshot ⟨[], []⟩ "2026-02-03" none).1 "2026-02-03" none).1.remoteTags.count
        (tagName "2026-02-03") = 1 ∧
      LogEntry.warning ("Tag " ++ tagName "2026-02-03" ++ " already exists — skipping.") ∈
        (snapshot (snapshot ⟨[], []⟩ "2026-02-03" none).1 "2026-02-03" none).2.1) :=
  ⟨⟨by decide, by decide⟩,
    snapshot_idempotent ⟨[], []⟩ "2026-02-03" (by decide) (by decide)⟩

/-! ## C3 — configuration allow-list -/

theorem lookup_setMap_self {β : Type} (l : List (String × β)) (k : String) (v : β)
    (h : ∃ p ∈ l, p.1 = k) :
    (l.map fun p => if p.1 = k then (p.1, v) else p).lookup k = some v := by
  induction l with
  | nil => simp at h
  | cons a t ih =>
    obtain ⟨a1, a2⟩ := a
    by_cases hk : a1 = k
    · subst hk
      simp [List.lookup_cons]
    · have h2 : ∃ p ∈ t, p.1 = k := by
        rcases h with ⟨p, hp, hpk⟩
        rcases List.mem_cons.mp hp with rfl | hp2
        · exact absurd hpk hk
        · exact ⟨p, hp2, hpk⟩
      have hne : (k == a1) = false := beq_eq_false_iff_ne.mpr fun hkk => hk hkk.symm
      simp [List.lookup_cons, hk, hne, ih h2]

theorem lookup_setMap_ne {β : Type} (l : List (String × β)) (k : String) (v : β)
    (q : String) (h : q ≠ k) :
    (l.map fun p => if p.1 = k then (p.1, v) else p).lookup q = l.lookup q := by
  induction l with
  | nil => rfl
  | cons a t ih =>
    obtain ⟨a1, a2⟩ := a
    by_cases hk : a1 = k
    · subst hk
      have hne : (q == a1) = false := beq_eq_false_iff_ne.mpr h
      simp [List.lookup_cons, hne, ih]
    · by_cases hq : q = a1
      · subst hq
        simp [List.lookup_cons, hk]
      · have hne : (q == a1) = false := beq_eq_false_iff_ne.mpr hq
        simp [List.lookup_cons, hk, hne, ih]

theorem lookup_updateOne_self {β : Type} (base : List (String × β)) (k : String) (v : β) :
    (updateOne base (k, v)).lookup k = some v := by
  unfold updateOne
  by_cases h : base.any fun p => decide (p.1 = k)
  · rw [if_pos (by simpa using h)]
    apply lookup_setMap_self
    simpa [List.any_eq_true] using h
  · rw [if_neg (by simpa using h)]
    rw [List.lookup_append]
    have hnone : base.lookup k = none := by
      rw [List.lookup_eq_none_iff]
      intro p hp
      simp only [List.any_eq_true, decide_eq_true_eq] at h
      push_neg at h
      exact bne_iff_ne.mpr fun hq => (h p hp) hq.symm
    simp [hnone, List.lookup_cons]

theorem lookup_updateOne_ne {β : Type} (base : List (String × β)) (kv : String × β)
    (q : String) (h : q ≠ kv.1) :
    (updateOne base kv).lookup q = base.lookup q := by
  obtain ⟨k1, k2⟩ := kv
  unfold updateOne
  by_cases hany : base.any fun p => decide (p.1 = k1)
  · rw [if_pos (by simpa using hany)]
    exact lookup_setMap_ne base k1 k2 q h
  · rw [if_neg (by simpa using hany)]
    rw [List.lookup_append]
    have hq : (q == k1) = false := beq_eq_false_iff_ne.mpr h
    simp [List.lookup_cons, hq]

theorem lookup_updateOne {β : Type} (base : List (String × β)) (kv : String × β)
    (q : String) :
    (updateOne base kv).lookup q = (List.lookup q [kv]).or (base.lookup q) := by
  obtain ⟨k1, k2⟩ := kv
  by_cases h : q = k1
  · subst h
    rw [lookup_updateOne_self base q k2]
    simp [List.lookup_cons]
  · rw [lookup_updateOne_ne base (k1, k2) q h]
    have hq : (q == k1) = false := beq_eq_false_iff_ne.mpr h
    simp [List.lookup_cons, hq]

theorem keys_updateOne {β : Type} (base : List (String × β)) (kv : String × β)
    (h : kv.1 ∈ base.map Prod.fst) :
    (updateOne base kv).map Prod.fst = base.map Prod.fst := by
  unfold updateOne
  have hany : (base.any fun p => decide (p.1 = kv.1)) = true := by
    simp only [List.any_eq_true]
    rcases List.mem_map.mp h with ⟨p, hp, hpk⟩
    exact ⟨p, hp, by simpa using hpk⟩
  rw [if_pos (by simpa using hany)]
  rw [List.map_map]
  apply List.map_congr_left
  intro p _
  by_cases hp : p.1 = kv.1 <;> simp [hp]

theorem foldl_updateOne_keys {β : Type} (l : List (String × β)) (base : List (String × β))
    (h : ∀ kv ∈ l, kv.1 ∈ base.map Prod.fst) :
    (l.foldl updateOne base).map Prod.fst = base.map Prod.fst := by
  induction l generalizing base with
  | nil => rfl
  | cons a t ih =>
    rw [List.foldl_cons]
    have hkeys := keys_updateOne base a (h a (List.mem_cons_self a t))
    rw [ih (updateOne base a) ?_, hkeys]
    intro kv hkv
    rw [hkeys]
    exact h kv (List.mem_cons_of_mem a hkv)

theorem foldl_updateOne_lookup {β : Type} (l : List (String × β)) (base : List (String × β))
    (q : String) :
    (l.foldl updateOne base).lookup q = (l.reverse.lookup q).or (base.lookup q) := by
  induction l generalizing base with
  | nil => simp
  | cons a t ih =>
    rw [List.foldl_cons, ih (updateOne base a), lookup_updateOne base a q]
    rw [List.reverse_cons, List.lookup_append, Option.or_assoc]

theorem lookup_eq_none_of_not_mem_keys {β : Type} (l : List (String × β)) (q : String)
    (h : q ∉ l.map Prod.fst) :
    l.lookup q = none := by
  rw [List.lookup_eq_none_iff]
  intro p hp
  have : p.1 ∈ l.map Prod.fst := List.mem_map.mpr ⟨p, hp, rfl⟩
  simp only [bne_iff_ne, ne_eq]
  exact fun hq => h (hq ▸ this)

theorem lookup_reverse_nodup {β : Type} (l : List (String × β))
    (h : (l.map Prod.fst).Nodup) (q : String) :
    l.reverse.lookup q = l.lookup q := by
  induction l with
  | nil => rfl
  | cons a t ih =>
    obtain ⟨a1, a2⟩ := a
    rw [List.map_cons, List.nodup_cons] at h
    rw [List.reverse_cons, List.lookup_append, ih h.2]
    by_cases hq : q = a1
    · subst hq
      have ht : t.lookup q = none :=
        lookup_eq_none_of_not_mem_keys t q h.1
      simp [ht, List.lookup_cons]
    · have hne : (q == a1) = false := beq_eq_false_iff_ne.mpr hq
      simp [List.lookup_cons, hne]

theorem lookup_filter_keyprop {β : Type} (l : List (String × β)) (q : String → Bool)
    (k : String) :
    (l.filter fun kv => q kv.1).lookup k = if q k then l.lookup k else none := by
  induction l with
  | nil => simp
  | cons a t ih =>
    obtain ⟨a1, a2⟩ := a
    by_cases ha : q a1
    · rw [List.filter_cons_of_pos (by simpa using ha)]
      by_cases hk : k = a1
      · subst hk
        simp [List.lookup_cons, ha]
      · have hne : (k == a1) = false := beq_eq_false_iff_ne.mpr hk
        simp [List.lookup_cons, hne, ih]
    · rw [List.filter_cons_of_neg (by simpa using ha)]
      by_cases hk : k = a1
      · subst hk
        simp [ih, ha]
      · have hne : (k == a1) = false := beq_eq_false_iff_ne.mpr hk
        simp [List.lookup_cons, hne, ih]

/-- `k in DEFAULTS` as the code tests it, versus key membership. -/
theorem defaults_any_iff (k : String) :
    (DEFAULTS.any fun d => decide (d.1 = k)) = true ↔ k ∈ DEFAULTS.map Prod.fst := by
  simp [List.any_eq_true, List.mem_map]

/-- C3: for every override mapping, the merged configuration has exactly the
recognized default keys; a recognized key present in the override takes the
override value, a recognized key absent takes its default, and every
unrecognized key is dropped. -/
theorem load_config_allowlist (ovs : List (String × ConfigValue))
    (h : (ovs.map Prod.fst).Nodup) :
    (load_config (some (some ovs))).map Prod.fst = DEFAULTS.map Prod.fst ∧
    (∀ k v, k ∈ DEFAULTS.map Prod.fst → ovs.lookup k = some v →
      (load_config (some (some ovs))).lookup k = some v) ∧
    (∀ k, ovs.lookup k = none →
      (load_config (some (some ovs))).lookup k = DEFAULTS.lookup k) ∧
    (∀ k, k ∉ DEFAULTS.map Prod.fst → (load_config (some (some ovs))).lookup k = none) := by
  have hfsub : ∀ kv ∈ ovs.filter fun kv => DEFAULTS.any fun d => decide (d.1 = kv.1),
      kv.1 ∈ DEFAULTS.map Prod.fst := by
    intro kv hkv
    have := (List.mem_filter.mp hkv).2
    exact (defaults_any_iff kv.1).mp (by simpa using this)
  have hfnodup :
      (((ovs.filter fun kv => DEFAULTS.any fun d => decide (d.1 = kv.1)).map Prod.fst)).Nodup :=
    List.Nodup.sublist (List.Sublist.map Prod.fst (List.filter_sublist ovs)) h
  have hkeys : (load_config (some (some ovs))).map Prod.fst = DEFAULTS.map Prod.fst :=
    foldl_updateOne_keys _ DEFAULTS hfsub
  have hlook : ∀ k, (load_config (some (some ovs))).lookup k
      = (if DEFAULTS.any fun d => decide (d.1 = k) then ovs.lookup k else none).or
          (DEFAULTS.lookup k) := by
    intro k
    show ((ovs.filter fun kv => DEFAULTS.any fun d => decide (d.1 = kv.1)).foldl
        updateOne DEFAULTS).lookup k = _
    rw [foldl_updateOne_lookup, lookup_reverse_nodup _ hfnodup,
      lookup_filter_keyprop ovs (fun x => DEFAULTS.any fun d => decide (d.1 = x)) k]
  refine ⟨hkeys, ?_, ?_, ?_⟩
  · intro k v hk hv
    rw [hlook k, if_pos ((defaults_any_iff k).mpr hk), hv]
    rfl
  · intro k hv
    rw [hlook k]
    by_cases hq : (DEFAULTS.any fun d => decide (d.1 = k)) = true
    · rw [if_pos hq, hv]
      rfl
    · rw [if_neg hq]
      rfl
  · intro k hk
    apply lookup_eq_none_of_not_mem_keys
    rw [hkeys]
    exact hk

/-- Witness for C3: one recognized and one unrecognized override key. -/
theorem load_config_allowlist_witness :
    ((([("model", ConfigValue.str "x"), ("junk", ConfigValue.int 1)] :
        List (String × ConfigValue)).map Prod.fst).Nodup) ∧
    ((load_config (some (some [("model", ConfigValue.str "x"),
        ("junk", ConfigValue.int 1)]))).map Prod.fst = DEFAULTS.map Prod.fst ∧
      (∀ k v, k ∈ DEFAULTS.map Prod.fst →
        List.lookup k [("model", ConfigValue.str "x"), ("junk", ConfigValue.int 1)] = some v →
        (load_config (some (some [("model", ConfigValue.str "x"),
          ("junk", ConfigValue.int 1)]))).lookup k = some v) ∧
      (∀ k, List.lookup k [("model", ConfigValue.str "x"),
          ("junk", ConfigValue.int 1)] = none →
        (load_config (some (some [("model", ConfigValue.str "x"),
          ("junk", ConfigValue.int 1)]))).lookup k = DEFAULTS.lookup k) ∧
      (∀ k, k ∉ DEFAULTS.map Prod.fst →
        (load_config (some (some [("model", ConfigValue.str "x"),
          ("junk", ConfigValue.int 1)]))).lookup k = none)) :=
  ⟨by decide,
    load_config_allowlist [("model", ConfigValue.str "x"), ("junk", ConfigValue.int 1)]
      (by decide)⟩

/-! ## C6 — conditional commit of same-day edits -/

/-- C6 counterexample: a file touched today whose content is unchanged.
The detector reports an edit (mtime falls on today), so the commit sequence
runs, but `git add .` stages nothing and `git commit` exits non-zero:
no commit is created, nothing is pushed, and the run aborts — contradicting
the claim that one commit containing the detected file is created and
pushed. -/
theorem reconcile_touched_unchanged_counterexample :
    detect_human_edits [⟨["notes.md"], 5⟩] 5 ≠ [] ∧
    (reconcile_edits [⟨["notes.md"], 5⟩] 5 ⟨[], [], [], []⟩).1.commits = [] ∧
    (reconcile_edits [⟨["notes.md"], 5⟩] 5 ⟨[], [], [], []⟩).1.pushedMain = [] ∧
    (reconcile_edits [⟨["notes.md"], 5⟩] 5 ⟨[], [], [], []⟩).2.2
      = some ⟨1, gitCmdLine (GitCmd.commit "chore: human updates")⟩ :=
  ⟨by decide, by decide, by decide, by decide⟩

/-- C6 (amended): with zero files modified today no git command is issued at
all; with one or more, the add and commit commands are issued, and
— when there are staged changes — exactly one commit containing all of them
is created and pushed to main; when nothing is staged the commit command
fails, nothing is committed or pushed, and the failure is raised. -/
theorem reconcile_conditional_commit (fs : List WorkFile) (today : Nat) (w : WorkTree) :
    (detect_human_edits fs today = [] →
      reconcile_edits fs today w = (w, [], none)) ∧
    (detect_human_edits fs today ≠ [] → w.changed ≠ [] →
      (reconcile_edits fs today w).1.commits = w.commits ++ [w.changed] ∧
      (reconcile_edits fs today w).2.1 = commit_human_edits_cmds ∧
      (reconcile_edits fs today w).2.2 = none ∧
      w.changed ∈ (reconcile_edits fs today w).1.pushedMain) ∧
    (detect_human_edits fs today ≠ [] → w.changed = [] →
      (reconcile_edits fs today w).1.commits = w.commits ∧
      (reconcile_edits fs today w).1.pushedMain = w.pushedMain ∧
      (reconcile_edits fs today w).2.2.isSome = true ∧
      GitCmd.push "origin" "main" ∉ (reconcile_edits fs today w).2.1) := by
  refine ⟨?_, ?_, ?_⟩
  · intro h
    simp [reconcile_edits, List.isEmpty_iff, h]
  · intro h hc
    have hne : ¬ (detect_human_edits fs today).isEmpty = true := by
      simpa [List.isEmpty_iff] using h
    simp [reconcile_edits, hne, execAll, execGit, commit_human_edits_cmds,
      List.isEmpty_iff, hc]
  · intro h hc
    have hne : ¬ (detect_human_edits fs today).isEmpty = true := by
      simpa [List.isEmpty_iff] using h
    simp [reconcile_edits, hne, execAll, execGit, commit_human_edits_cmds,
      List.isEmpty_iff, hc]

/-- Witness for C6 (amended): one genuinely changed file detected today. -/
theorem reconcile_conditional_commit_witness :
    (detect_human_edits [⟨["ch1.md"], 7⟩] 7 ≠ [] ∧
      ([[ "ch1.md" ]] : List (List String)) ≠ []) ∧
    ((reconcile_edits [⟨["ch1.md"], 7⟩] 7 ⟨[["ch1.md"]], [], [], []⟩).1.commits
        = [] ++ [[["ch1.md"]]] ∧
      (reconcile_edits [⟨["ch1.md"], 7⟩] 7 ⟨[["ch1.md"]], [], [], []⟩).2.1
        = commit_human_edits_cmds ∧
      (reconcile_edits [⟨["ch1.md"], 7⟩] 7 ⟨[["ch1.md"]], [], [], []⟩).2.2 = none ∧
      [["ch1.md"]] ∈ (reconcile_edits [⟨["ch1.md"], 7⟩] 7
        ⟨[["ch1.md"]], [], [], []⟩).1.pushedMain) :=
  ⟨⟨by decide, by decide⟩,
    (reconcile_conditional_commit [⟨["ch1.md"], 7⟩] 7 ⟨[["ch1.md"]], [], [], []⟩).2.1
      (by decide) (by decide)⟩

/-! ## C8 — draft branch convergence -/

theorem rebaseMain_ok (r : BranchRepo) (mc bc : List Nat)
    (hm : r.locals.lookup "main" = some mc) (hb : r.locals.lookup "draft" = some bc) :
    rebaseMain r "draft"
      = Except.ok { r with
          locals := updateOne r.locals ("draft", mc ++ bc.filter fun c => c ∉ mc) } := by
  unfold rebaseMain
  rw [hm, hb]

/-- C8: whenever a local main branch exists, the Draft Branch Manager
succeeds from every starting state (draft absent, local-only, remote-only,
or synced), ends with the draft branch checked out, and the draft branch
contains every commit of the main line. -/
theorem branch_for_draft_converges (r : BranchRepo) (mc : List Nat)
    (hmain : r.locals.lookup "main" = some mc) :
    ∃ r2 dc, branch_for_draft r = Except.ok r2 ∧
      r2.head = "draft" ∧
      r2.locals.lookup "draft" = some dc ∧
      ∀ c ∈ mc, c ∈ dc := by
  cases hl : r.locals.lookup "draft" with
  | none =>
    cases hr : r.remotes.lookup "draft" with
    | none =>
      have hstep : branch_for_draft r
          = Except.ok ⟨r.locals ++ [("draft", mc)],
              updateOne r.remotes ("draft", mc), "draft"⟩ := by
        unfold branch_for_draft
        simp [hl, hr, hmain]
      refine ⟨_, mc, hstep, rfl, ?_, fun c hc => hc⟩
      rw [List.lookup_append, hl]
      simp [List.lookup_cons]
    | some dc =>
      have hm2 : (⟨r.locals ++ [("draft", dc)], r.remotes, "draft"⟩ :
          BranchRepo).locals.lookup "main" = some mc := by
        show (r.locals ++ [("draft", dc)]).lookup "main" = some mc
        rw [List.lookup_append, hmain]
        rfl
      have hb2 : (⟨r.locals ++ [("draft", dc)], r.remotes, "draft"⟩ :
          BranchRepo).locals.lookup "draft" = some dc := by
        show (r.locals ++ [("draft", dc)]).lookup "draft" = some dc
        rw [List.lookup_append, hl]
        simp [List.lookup_cons]
      have hstep : branch_for_draft r
          = rebaseMain ⟨r.locals ++ [("draft", dc)], r.remotes, "draft"⟩ "draft" := by
        unfold branch_for_draft
        simp [hl, hr]
      rw [hstep, rebaseMain_ok _ mc dc hm2 hb2]
      exact ⟨_, _, rfl, rfl, lookup_updateOne_self _ "draft" _,
        fun c hc => List.mem_append_left _ hc⟩
  | some dc =>
    have hstep : branch_for_draft r
        = rebaseMain { r with head := "draft" } "draft" := by
      unfold branch_for_draft
      simp [hl]
    rw [hstep, rebaseMain_ok { r with head := "draft" } mc dc hmain hl]
    exact ⟨_, _, rfl, rfl, lookup_updateOne_self _ "draft" _,
      fun c hc => List.mem_append_left _ hc⟩

/-- Witness for C8: a repository with only a main branch. -/
theorem branch_for_draft_converges_witness :
    ((⟨[("main", [1, 2])], [], "main"⟩ : BranchRepo).locals.lookup "main" = some [1, 2]) ∧
    (∃ r2 dc, branch_for_draft ⟨[("main", [1, 2])], [], "main"⟩ = Except.ok r2 ∧
      r2.head = "draft" ∧
      r2.locals.lookup "draft" = some dc ∧
      ∀ c ∈ [1, 2], c ∈ dc) :=
  ⟨by decide, branch_for_draft_converges ⟨[("main", [1, 2])], [], "main"⟩ [1, 2] (by decide)⟩

/-! ## C4 and C5 — payload ordering and word count -/

theorem strLt_iff (a b : String) : strLt a b = true ↔ a < b := by
  rw [String.lt_iff_toList_lt]
  simp [strLt, String.toList]

theorem pathLe_cons_iff (x y : String) (xs ys : List String) :
    pathLe (x :: xs) (y :: ys) = true ↔ x.data < y.data ∨ (x = y ∧ pathLe xs ys = true) := by
  by_cases h1 : x.data < y.data
  · have hb : strLt x y = true := by simp [strLt, h1]
    simp [pathLe, hb, h1]
  · have hb1 : strLt x y = false := by simp [strLt, h1]
    by_cases h2 : y.data < x.data
    · have hb2 : strLt y x = true := by simp [strLt, h2]
      have hne : ¬ (x = y ∧ pathLe xs ys = true) := by
        rintro ⟨rfl, -⟩
        exact lt_irrefl _ h2
      simp [pathLe, hb1, hb2, h1, hne]
    · have hxy : x = y := String.ext (le_antisymm (not_lt.mp h2) (not_lt.mp h1))
      subst hxy
      simp [pathLe, hb1, h1]

theorem pathLe_total (a b : List String) : (pathLe a b || pathLe b a) = true := by
  induction a generalizing b with
  | nil => simp [pathLe]
  | cons x xs ih =>
    cases b with
    | nil => simp [pathLe]
    | cons y ys =>
      rcases lt_trichotomy x.data y.data with h | h | h
      · simp [Bool.or_eq_true, pathLe_cons_iff, h]
      · have hxy : x = y := String.ext h
        subst hxy
        have hih := ih ys
        rw [Bool.or_eq_true] at hih ⊢
        rw [pathLe_cons_iff, pathLe_cons_iff]
        rcases hih with h2 | h2
        · exact Or.inl (Or.inr ⟨rfl, h2⟩)
        · exact Or.inr (Or.inr ⟨rfl, h2⟩)
      · simp [Bool.or_eq_true, pathLe_cons_iff, h]

theorem pathLe_trans (a b c : List String) (h1 : pathLe a b = true)
    (h2 : pathLe b c = true) : pathLe a c = true := by
  induction a generalizing b c with
  | nil => simp [pathLe]
  | cons x xs ih =>
    cases b with
    | nil => simp [pathLe] at h1
    | cons y ys =>
      cases c with
      | nil => simp [pathLe] at h2
      | cons z zs =>
        rw [pathLe_cons_iff] at h1 h2 ⊢
        rcases h1 with h1 | ⟨rfl, h1⟩
        · rcases h2 with h2 | ⟨rfl, h2⟩
          · exact Or.inl (lt_trans h1 h2)
          · exact Or.inl h1
        · rcases h2 with h2 | ⟨rfl, h2⟩
          · exact Or.inl h2
          · exact Or.inr ⟨rfl, ih ys zs h1 h2⟩

theorem fileLe_trans (a b c : FileEntry) (h1 : fileLe a b = true)
    (h2 : fileLe b c = true) : fileLe a c = true :=
  pathLe_trans a.path b.path c.path h1 h2

theorem fileLe_total (a b : FileEntry) : (fileLe a b || fileLe b a) = true :=
  pathLe_total a.path b.path

/-- On two sibling files the component order is the file-name order. -/
theorem pathLe_pair (d n₁ n₂ : String) (h : pathLe [d, n₁] [d, n₂] = true) : n₁ ≤ n₂ := by
  rw [pathLe_cons_iff] at h
  rcases h with h | ⟨-, h⟩
  · exact absurd h (lt_irrefl _)
  · rw [pathLe_cons_iff] at h
    rcases h with h | ⟨h, -⟩
    · refine le_of_lt ?_
      rw [String.lt_iff_toList_lt]
      exact h
    · exact le_of_eq h

theorem isGlobalMd_shape (f : FileEntry) (h : isGlobalMd f = true) :
    ∃ n, f.path = ["Global Material", n] := by
  unfold isGlobalMd at h
  rcases hp : f.path with - | ⟨d, - | ⟨n, - | ⟨m, rest⟩⟩⟩ <;> rw [hp] at h <;> simp at h
  exact ⟨n, by rw [h.1]⟩

/-- C4: the context list is the sorted global-material files, then the
sorted chapter-material files, then the review draft when present;
the global segment is moreover ordered by file name alone, while the
chapter segment is ordered by the full relative path. -/
theorem contextSections_ordering (fs : List FileEntry) :
    ∃ g c,
      contextSections fs
        = g.map toSection ++ c.map toSection ++ (reviewSection fs).map toSection ∧
      g.Perm (fs.filter isGlobalMd) ∧
      List.Pairwise (fun a b => pathLe a.path b.path = true) g ∧
      List.Pairwise (fun a b => a.path.getLastD "" ≤ b.path.getLastD "") g ∧
      c.Perm (fs.filter isChapterMd) ∧
      List.Pairwise (fun a b => pathLe a.path b.path = true) c := by
  refine ⟨(fs.filter isGlobalMd).mergeSort fileLe,
    (fs.filter isChapterMd).mergeSort fileLe, rfl,
    List.mergeSort_perm _ _, ?_, ?_, List.mergeSort_perm _ _, ?_⟩
  · exact (List.sorted_mergeSort fileLe_trans fileLe_total _).imp fun h => h
  · refine List.Pairwise.imp_of_mem ?_
      (List.sorted_mergeSort fileLe_trans fileLe_total (fs.filter isGlobalMd))
    intro a b ha hb hab
    have ha2 : isGlobalMd a = true :=
      (List.mem_filter.mp ((List.mergeSort_perm _ _).mem_iff.mp ha)).2
    have hb2 : isGlobalMd b = true :=
      (List.mem_filter.mp ((List.mergeSort_perm _ _).mem_iff.mp hb)).2
    obtain ⟨na, hpa⟩ := isGlobalMd_shape a ha2
    obtain ⟨nb, hpb⟩ := isGlobalMd_shape b hb2
    have hle : pathLe a.path b.path = true := hab
    rw [hpa, hpb] at hle
    rw [hpa, hpb]
    simpa using pathLe_pair _ na nb hle
  · exact (List.sorted_mergeSort fileLe_trans fileLe_total _).imp fun h => h

/-- In a list sorted by `fileLe` whose strictly greatest element is `f`, the
last element is `f`. -/
theorem getLast_eq_of_max (l : List FileEntry) (f : FileEntry)
    (hs : List.Pairwise (fun a b => fileLe a b = true) l)
    (hmem : f ∈ l) (hmax : ∀ g ∈ l, g ≠ f → pathLt g.path f.path = true) :
    l.getLast? = some f := by
  induction l with
  | nil => cases hmem
  | cons a t ih =>
    cases t with
    | nil =>
      rw [List.mem_singleton.mp hmem]
      rfl
    | cons b t2 =>
      rw [List.getLast?_cons_cons]
      have hf2 : f ∈ b :: t2 := by
        rcases List.mem_cons.mp hmem with rfl | hf
        · by_contra hnot
          have hbf : b ≠ f := fun hb => hnot (hb ▸ List.mem_cons_self b t2)
          have h1 := hmax b (List.mem_cons_of_mem _ (List.mem_cons_self b t2)) hbf
          have h2 := List.rel_of_pairwise_cons hs (List.mem_cons_self b t2)
          unfold pathLt at h1
          rw [Bool.and_eq_true, Bool.not_eq_true'] at h1
          exact absurd (h2 : pathLe f.path b.path = true) (by simp [fileLe, h1.2])
        · exact hf
      exact ih hs.of_cons hf2 fun g hg hgf =>
        hmax g (List.mem_cons_of_mem a hg) hgf

/-- C5: the manuscript word count is `0` when no file matches the versioned
pattern under the current-version directory (in particular when the
directory is absent), and otherwise is the whitespace-split word count of
the lexicographically last match; a manuscript reading exactly
"one two three" counts 3 words. -/
theorem manuscript_word_count_spec :
    (∀ fs : List FileEntry, fs.filter isVersionBook = [] → manuscript_word_count fs = 0) ∧
    (∀ (fs : List FileEntry) (f : FileEntry), f ∈ fs → isVersionBook f = true →
      (∀ g ∈ fs, isVersionBook g = true → g ≠ f → pathLt g.path f.path = true) →
      manuscript_word_count fs = count_words f.content) ∧
    count_words "one two three" = 3 := by
  refine ⟨?_, ?_, by decide⟩
  · intro fs h
    unfold manuscript_word_count
    rw [h, List.mergeSort_nil]
    rfl
  · intro fs f hmem hver hmax
    unfold manuscript_word_count
    have hmem2 : f ∈ (fs.filter isVersionBook).mergeSort fileLe :=
      (List.mergeSort_perm _ _).mem_iff.mpr (List.mem_filter.mpr ⟨hmem, hver⟩)
    have hmax2 : ∀ g ∈ (fs.filter isVersionBook).mergeSort fileLe, g ≠ f →
        pathLt g.path f.path = true := by
      intro g hg hgf
      have hgm := List.mem_filter.mp ((List.mergeSort_perm _ _).mem_iff.mp hg)
      exact hmax g hgm.1 hgm.2 hgf
    rw [getLast_eq_of_max _ f
      (List.sorted_mergeSort fileLe_trans fileLe_total _) hmem2 hmax2]

/-- Witness for C5: an empty project, and a project with two manuscript
versions of which `Full_Book_v2.md` is the lexicographically last. -/
theorem manuscript_word_count_spec_witness :
    (([] : List FileEntry).filter isVersionBook = [] ∧
      manuscript_word_count ([] : List FileEntry) = 0) ∧
    manuscript_word_count
      [⟨["Current version", "Full_Book_v1.md"], "one two three"⟩,
       ⟨["Current version", "Full_Book_v2.md"], "hello world"⟩]
      = count_words "hello world" :=
  ⟨⟨by decide, manuscript_word_count_spec.1 [] (by decide)⟩,
    manuscript_word_count_spec.2.1
      [⟨["Current version", "Full_Book_v1.md"], "one two three"⟩,
       ⟨["Current version", "Full_Book_v2.md"], "hello world"⟩]
      ⟨["Current version", "Full_Book_v2.md"], "hello world"⟩
      (by decide) (by decide) (by decide)⟩

end InkGateway
